import Mathlib

/-!
Verification of the rust-intonation library: a shallow embedding of the
rational-arithmetic core (`src/math.rs`, `src/ratio.rs`), the interval
approximation (`src/interval.rs`), the lattice (`src/lattice/`), and the
tonality diamond (`src/diamond.rs`), together with theorems settling the
specification claims.

Modelling conventions:
* Rust machine integers are modelled by `Int` (the library is generic over
  the integer width; width-specific overflow is modelled separately for the
  overflow claim via `checkedMul`).  Rust `%` is `Int.tmod` and Rust `/` is
  `Int.tdiv` (both truncate toward zero, as in Rust).
* A Rust panic (division by zero in `reduce`) is modelled by `Option`:
  `none` is a computation that does not return normally.
* `Ratio::normalize` does not terminate on every input, so it is embedded
  as a fuel-indexed function `normalizeGo`; `Ratio.normalize` runs it with
  fuel that is proved sufficient for every input on which the Rust code
  returns.  `none` covers both divergence and an embedded panic.
* The `f64` comparisons in `normalize` and the cents computation in the
  interval conversion are idealized to exact arithmetic over `ℚ`
  (the float value of a ratio is `numer / denom`); the rounding of
  `1200*log2(n/d)` to a multiple of 100 is expressed exactly with
  `Int.log`, which is valid because a rational value never lies exactly
  half way between two multiples of 100 cents.
-/

namespace RustIntonation

/-- Fuel-indexed body of `gcd` from `src/math.rs`: the loop
`while a % b > 0 { t = a % b; a = b; b = t }; b`.  One unit of fuel per
iteration; the wrapper `rustGcd` supplies fuel that always suffices. -/
def gcdGo : Nat → Int → Int → Int
  | 0, _, b => b
  | fuel + 1, a, b => if 0 < Int.tmod a b then gcdGo fuel b (Int.tmod a b) else b

/-- `gcd` from `src/math.rs`.  The loop runs at most `|b|` iterations
because the second argument strictly decreases in absolute value, so
`|b| + 1` units of fuel always suffice.  The Rust code evaluates `a % b`,
which panics when `b = 0`; that case is guarded by `reduce`. -/
def rustGcd (a b : Int) : Int := gcdGo (b.natAbs + 1) a b

/-- `reduce` from `src/math.rs`: `(a / g, b / g)` with `g = gcd(a, b)`.
When `b = 0` the gcd loop evaluates `a % 0` and panics, modelled as
`none`. -/
def reduce (a b : Int) : Option (Int × Int) :=
  if b = 0 then none
  else some (Int.tdiv a (rustGcd a b), Int.tdiv b (rustGcd a b))

/-- `sign_preserving_mod` from `src/math.rs`: `(a % b + b) % b` with the
Rust truncating remainder. -/
def sign_preserving_mod (a b : Int) : Int := Int.tmod (Int.tmod a b + b) b

/-- `Ratio<T>` from `src/ratio.rs`. -/
structure Ratio where
  numer : Int
  denom : Int
deriving DecidableEq, Repr

/-- `Ratio::new` from `src/ratio.rs`: reduce, then store the pair.
`none` when `reduce` panics (zero denominator). -/
def Ratio.new (numer denom : Int) : Option Ratio :=
  (reduce numer denom).map fun p => ⟨p.1, p.2⟩

/-- The float value of a ratio (`impl From<&Ratio<T>> for f64`),
idealized as an exact rational. -/
def Ratio.val (r : Ratio) : ℚ := (r.numer : ℚ) / (r.denom : ℚ)

/-- The comparison `(n as f64 / d as f64) < 1.0`, expressed exactly on the
integer pair.  For `d = 0` the float quotient is an infinity or NaN, so
the test holds exactly when `n < 0`. -/
def ltOne (n d : Int) : Prop :=
  if 0 < d then n < d else if d < 0 then d < n else n < 0

instance (n d : Int) : Decidable (ltOne n d) := by unfold ltOne; infer_instance

/-- The comparison `(n as f64 / d as f64) >= 2.0`, expressed exactly on the
integer pair.  For `d = 0` the test holds exactly when `0 < n`. -/
def geTwo (n d : Int) : Prop :=
  if 0 < d then 2 * d ≤ n else if d < 0 then n ≤ 2 * d else 0 < n

instance (n d : Int) : Decidable (geTwo n d) := by unfold geTwo; infer_instance

/-- Fuel-indexed body of `Ratio::normalize`: double the numerator while the
value is below 1, double the denominator while it is at least 2, and
re-reduce through `Ratio::new` at every step.  The Rust recursion has no
fuel; `none` models both running out of fuel and an embedded panic. -/
def normalizeGo : Nat → Ratio → Option Ratio
  | 0, _ => none
  | fuel + 1, r =>
    if ltOne r.numer r.denom then (Ratio.new (r.numer * 2) r.denom).bind (normalizeGo fuel)
    else if geTwo r.numer r.denom then (Ratio.new r.numer (r.denom * 2)).bind (normalizeGo fuel)
    else Ratio.new r.numer r.denom

/-- Fuel bound for `normalize`: proved sufficient (see the claim theorems)
for every ratio on which the Rust recursion terminates. -/
def Ratio.normFuel (r : Ratio) : Nat := r.numer.natAbs + r.denom.natAbs + 1

/-- `Ratio::normalize` from `src/ratio.rs`. -/
def Ratio.normalize (r : Ratio) : Option Ratio := normalizeGo r.normFuel r

/-- `impl Mul for Ratio<T>`: multiply numerators and denominators, then
reduce through `Ratio::new`. -/
def Ratio.mul (x y : Ratio) : Option Ratio :=
  Ratio.new (x.numer * y.numer) (x.denom * y.denom)

/-- `impl Div for Ratio<T>`: cross-multiply, then reduce. -/
def Ratio.div (x y : Ratio) : Option Ratio :=
  Ratio.new (x.numer * y.denom) (x.denom * y.numer)

/-- `Ratio::complement`: `(Ratio::new(2, 1) / self).normalize()`. -/
def Ratio.complement (r : Ratio) : Option Ratio :=
  ((Ratio.new 2 1).bind fun t => t.div r).bind Ratio.normalize

/-- The positive-exponent arm of `Ratio::pow`:
`Ratio::new(numer.pow(e), denom.pow(e)).normalize()` for `e > 0`, and the
`exp == 0` arm giving `Ratio::new(1, 1)`. -/
def Ratio.powNat (r : Ratio) (e : Nat) : Option Ratio :=
  if e = 0 then Ratio.new 1 1
  else (Ratio.new (r.numer ^ e) (r.denom ^ e)).bind Ratio.normalize

/-- `Ratio::pow` from `src/ratio.rs`.  The Rust code dispatches
`exp < 0` to `complement().pow(-exp)`; since `-exp > 0` that recursive
call lands in the non-negative arm, which is `powNat`, so the single
unfolding here is exactly the Rust recursion. -/
def Ratio.pow (r : Ratio) (exp : Int) : Option Ratio :=
  if 0 ≤ exp then r.powNat exp.toNat
  else r.complement.bind fun c => c.powNat (-exp).toNat

/-! Embedding of `src/interval.rs`. -/

/-- `TwelveEDOInterval` from `src/interval.rs`. -/
inductive TwelveEDOInterval
  | PerfectUnison
  | MinorSecond
  | MajorSecond
  | MinorThird
  | MajorThird
  | PerfectFourth
  | AugmentedFourth
  | PerfectFifth
  | MinorSixth
  | MajorSixth
  | MinorSeventh
  | MajorSeventh
deriving DecidableEq, Repr

/-- `impl From<f64> for TwelveEDOInterval`, applied to `et_cents`, which is
always `100 * k` for the rounded step count `k`.  The Rust code matches
`(et_cents / 100.) % 12.` (the `f64` remainder keeps the sign of the
dividend, and `-0.0 == 0.0`, which agrees with `Int.tmod`) against the
literals `0. .. 11.`, and panics on anything else. -/
def twelveEDOOfSteps (k : Int) : Option TwelveEDOInterval :=
  match Int.tmod k 12 with
  | 0 => some .PerfectUnison
  | 1 => some .MinorSecond
  | 2 => some .MajorSecond
  | 3 => some .MinorThird
  | 4 => some .MajorThird
  | 5 => some .PerfectFourth
  | 6 => some .AugmentedFourth
  | 7 => some .PerfectFifth
  | 8 => some .MinorSixth
  | 9 => some .MajorSixth
  | 10 => some .MinorSeventh
  | 11 => some .MajorSeventh
  | _ => none

/-- The rounded equal-tempered step count of `impl From<Ratio<T>> for
Approximate12EDOInterval`: `(ji_cents / 100.).round()` with
`ji_cents = 1200. * log2(value)`, that is, `round(12 * log2 q)`.
For a rational `q` the quantity `12 * log2 q` is never exactly half way
between two integers, so rounding it is `⌊12*log2 q + 1/2⌋ =
⌊⌊log2 (2*q^24)⌋ / 2⌋`, which is expressed exactly with `Int.log`. -/
def etSteps (q : ℚ) : Int := Int.fdiv (Int.log 2 (2 * q ^ 24)) 2

/-- The interval-name half of `impl From<Ratio<T>> for
Approximate12EDOInterval` (the cents deviation `ji_cents - et_cents` is an
irrational real and no claim concerns it, so it is not modelled): compute
the cents of the ratio value as is — the source does not normalize — round
to a multiple of 100, and look the step count up.  `none` is the panic of
the `From<f64>` match. -/
def Ratio.approximate12EDO (r : Ratio) : Option TwelveEDOInterval :=
  twelveEDOOfSteps (etSteps r.val)

/-! Width-checked multiplication, for the overflow claim.  In a debug
build Rust panics on `i32`/`i64` multiplication overflow (the crate's own
test `i32_can_overflow` expects the panic). -/

/-- Multiplication that fails loudly when the product leaves `[lo, hi]`. -/
def checkedMul (lo hi a b : Int) : Option Int :=
  if lo ≤ a * b ∧ a * b ≤ hi then some (a * b) else none

/-- `impl Mul for Ratio<T>` at a bounded integer width `[lo, hi]`: both
component products are computed (panicking on overflow), then the pair is
reduced through `Ratio::new`. -/
def Ratio.mulChecked (lo hi : Int) (x y : Ratio) : Option Ratio :=
  (checkedMul lo hi x.numer y.numer).bind fun n =>
    (checkedMul lo hi x.denom y.denom).bind fun d => Ratio.new n d

/-- The `i32` range. -/
def i32Min : Int := -(2 ^ 31)

/-- The `i32` range. -/
def i32Max : Int := 2 ^ 31 - 1

/-- The `i64` range. -/
def i64Min : Int := -(2 ^ 63)

/-- The `i64` range. -/
def i64Max : Int := 2 ^ 63 - 1

/-! Embedding of `src/lattice/`. -/

/-- `LatticeDimensionBounds` from `src/lattice/dimension_bounds.rs`. -/
inductive LatticeDimensionBounds
  | Infinite
  | LengthBounded (n : Int)
  | RangeBounded (a b : Int)
deriving DecidableEq, Repr

/-- `LatticeDimensionBounds::resolve_index`. -/
def LatticeDimensionBounds.resolve_index : LatticeDimensionBounds → Int → Int
  | .Infinite, index => index
  | .LengthBounded n, index => sign_preserving_mod index n
  | .RangeBounded a b, index => sign_preserving_mod (index + |a|) (b - a + 1) - |a|

/-- `LatticeDimension` from `src/lattice/dimension.rs`. -/
structure LatticeDimension where
  ratio : Ratio
  bounds : LatticeDimensionBounds

/-- `LatticeDimension::at` (named `atIndex` because `at` is reserved in
Lean): resolve the index through the boundary policy, then raise the
dimension ratio to the resolved power. -/
def LatticeDimension.atIndex (dim : LatticeDimension) (index : Int) : Option Ratio :=
  dim.ratio.pow (dim.bounds.resolve_index index)

/-- `Lattice` from `src/lattice/mod.rs`. -/
structure Lattice where
  dimensions : List LatticeDimension

/-- `Lattice::at` (named `atIndices`): zip dimensions with indices (Rust
`zip` truncates to the shorter list), map each pair through
`LatticeDimension::at`, and fold by ratio multiplication starting from
`Ratio::new(1, 1)`.  The Rust fold closure is `|r, acc| acc * r` with `r`
the accumulator and `acc` the element, so each step multiplies the element
by the accumulator. -/
def Lattice.atIndices (l : Lattice) (indices : List Int) : Option Ratio :=
  ((l.dimensions.zip indices).map fun p => p.1.atIndex p.2).foldl
    (fun r acc => r.bind fun rv => acc.bind fun av => av.mul rv)
    (Ratio.new 1 1)

/-! Embedding of `src/diamond.rs`. -/

/-- `Diamond` from `src/diamond.rs`; the identities are `u32`, modelled as
naturals (the `as i32` casts in `generate` are exact for identities below
`2^31`). -/
structure Diamond where
  identities : List Nat

/-- `Diamond::construct_ratios_with_denominator`: one row of the matrix. -/
def Diamond.constructRatiosWithDenominator (d : Diamond) (denominator : Int) :
    Option (List Ratio) :=
  d.identities.mapM fun n : Nat => (Ratio.new (n : Int) denominator).bind Ratio.normalize

/-- `Diamond::generate`: one row per identity used as the denominator. -/
def Diamond.generate (d : Diamond) : Option (List (List Ratio)) :=
  d.identities.mapM fun den : Nat => d.constructRatiosWithDenominator (den : Int)

/-- `Diamond::index_coordinates`.  `(i..=max).enumerate()` is the list of
pairs `(k, i + k)` for `k < max - i + 1`, here written with `List.range'`
and `List.enum`; the second family swaps each pair, as the Rust
`.map(|(a, b)| (b, a))` does.  For an empty identity list the Rust
`identities.len() - 1` underflows and panics; every claim about the
diamond assumes at least one identity. -/
def Diamond.indexCoordinates (d : Diamond) : List (List (Nat × Nat)) :=
  let max := d.identities.length - 1
  ((List.range (max + 1)).reverse.map fun i =>
      (List.range' i (max - i + 1)).enum) ++
    ((List.range' 1 max).map fun i =>
      ((List.range' i (max - i + 1)).enum).map fun p => (p.2, p.1))

/-- A normalized (octave-reduced) ratio: positive components in lowest
terms with value in `[1, 2)`. -/
def IsCanon (r : Ratio) : Prop :=
  0 < r.numer ∧ 0 < r.denom ∧ Int.gcd r.numer r.denom = 1 ∧ 1 ≤ r.val ∧ r.val < 2

/-- What `normalize` produces on a positive input with value `n / d`: a
positive reduced pair with value in `[1, 2)` that differs from `n / d` by
a power of two. -/
def NormResult (n d p q : Int) : Prop :=
  0 < p ∧ 0 < q ∧ Int.gcd p q = 1 ∧ q ≤ p ∧ p < 2 * q ∧
    ∃ j : ℤ, (p : ℚ) / (q : ℚ) = 2 ^ j * ((n : ℚ) / (d : ℚ))

/-! Helper lemmas. -/

theorem ltOne_iff_of_pos {n d : Int} (hd : 0 < d) : ltOne n d ↔ n < d := by
  simp [ltOne, hd]

theorem geTwo_iff_of_pos {n d : Int} (hd : 0 < d) : geTwo n d ↔ 2 * d ≤ n := by
  simp [geTwo, hd]

theorem gcdGo_eq_gcd :
    ∀ (fuel : Nat) (a b : Int), 0 < a → 0 < b → b.natAbs ≤ fuel →
      gcdGo fuel a b = (Int.gcd a b : Int) := by
  intro fuel
  induction fuel with
  | zero =>
    intro a b _ hb hfuel
    omega
  | succ fuel ih =>
    intro a b ha hb hfuel
    show (if 0 < Int.tmod a b then gcdGo fuel b (Int.tmod a b) else b) = _
    by_cases hr : 0 < Int.tmod a b
    · rw [if_pos hr]
      have hlt : Int.tmod a b < b := Int.tmod_lt_of_pos a hb
      have hfuel2 : (Int.tmod a b).natAbs ≤ fuel := by omega
      rw [ih b (Int.tmod a b) hb hr hfuel2]
      have hmod : Int.tmod a b = a % b := Int.tmod_eq_emod (le_of_lt ha) (le_of_lt hb)
      obtain ⟨A, rfl⟩ : ∃ A : Nat, a = (A : Int) := ⟨a.toNat, (Int.toNat_of_nonneg ha.le).symm⟩
      obtain ⟨B, rfl⟩ : ∃ B : Nat, b = (B : Int) := ⟨b.toNat, (Int.toNat_of_nonneg hb.le).symm⟩
      rw [hmod]
      have : ((A : Int) % (B : Int)) = ((A % B : Nat) : Int) := by omega
      rw [this, Int.gcd_natCast_natCast, Int.gcd_natCast_natCast]
      rw [Nat.gcd_comm B (A % B), ← Nat.gcd_rec, Nat.gcd_comm]
    · rw [if_neg hr]
      have h0 : Int.tmod a b = 0 := by
        have := Int.tmod_nonneg b (le_of_lt ha)
        omega
      have hdvd : b ∣ a := Int.dvd_of_tmod_eq_zero h0
      have : Int.gcd a b = b.natAbs := Nat.gcd_eq_right (Int.natAbs_dvd_natAbs.mpr hdvd)
      rw [this]
      omega

theorem rustGcd_eq_gcd {a b : Int} (ha : 0 < a) (hb : 0 < b) :
    rustGcd a b = (Int.gcd a b : Int) :=
  gcdGo_eq_gcd (b.natAbs + 1) a b ha hb (Nat.le_succ _)

theorem reduce_pos_eq {a b : Int} (ha : 0 < a) (hb : 0 < b) :
    reduce a b =
      some (a.tdiv (Int.gcd a b : Int), b.tdiv (Int.gcd a b : Int)) := by
  unfold reduce
  rw [if_neg (by omega), rustGcd_eq_gcd ha hb]

theorem gcd_pos_of_pos {a b : Int} (ha : 0 < a) (hb : 0 < b) :
    (0 : Int) < (Int.gcd a b : Int) := by
  have hne : Int.gcd a b ≠ 0 := by
    intro h
    have hdvd : ((Int.gcd a b : Int)) ∣ a := Int.gcd_dvd_left
    rw [h] at hdvd
    rw [Int.natCast_zero, zero_dvd_iff] at hdvd
    omega
  exact_mod_cast Nat.pos_of_ne_zero hne

theorem tdiv_pos_of_dvd {a g : Int} (ha : 0 < a) (hg : 0 < g) (hdvd : g ∣ a) :
    0 < a.tdiv g := by
  have hcancel : a.tdiv g * g = a := Int.tdiv_mul_cancel hdvd
  by_contra hle
  push_neg at hle
  have : a.tdiv g * g ≤ 0 := mul_nonpos_iff.mpr (Or.inr ⟨hle, hg.le⟩)
  omega

theorem cross_mul_of_cancel {x y g X Y : Int} (hx : X * g = x) (hy : Y * g = y) :
    X * y = x * Y := by
  subst hx hy
  ring

theorem reduce_pos_parts {a b : Int} (ha : 0 < a) (hb : 0 < b) :
    ∃ p q g : Int, reduce a b = some (p, q) ∧ 0 < p ∧ 0 < q ∧ 0 < g ∧
      p * g = a ∧ q * g = b ∧
      Int.gcd p q = 1 ∧ (p : ℚ) / (q : ℚ) = (a : ℚ) / (b : ℚ) := by
  have hg : (0 : Int) < (Int.gcd a b : Int) := gcd_pos_of_pos ha hb
  have ca : a.tdiv (Int.gcd a b : Int) * (Int.gcd a b : Int) = a :=
    Int.tdiv_mul_cancel Int.gcd_dvd_left
  have cb : b.tdiv (Int.gcd a b : Int) * (Int.gcd a b : Int) = b :=
    Int.tdiv_mul_cancel Int.gcd_dvd_right
  have hq : 0 < b.tdiv (Int.gcd a b : Int) :=
    tdiv_pos_of_dvd hb hg Int.gcd_dvd_right
  refine ⟨a.tdiv (Int.gcd a b : Int), b.tdiv (Int.gcd a b : Int), (Int.gcd a b : Int),
    reduce_pos_eq ha hb, tdiv_pos_of_dvd ha hg Int.gcd_dvd_left, hq, hg, ca, cb, ?_, ?_⟩
  · have h1 : a.tdiv (Int.gcd a b : Int) = a / (Int.gcd a b : Int) :=
      Int.tdiv_eq_ediv ha.le hg.le
    have h2 : b.tdiv (Int.gcd a b : Int) = b / (Int.gcd a b : Int) :=
      Int.tdiv_eq_ediv hb.le hg.le
    rw [h1, h2]
    exact Int.gcd_div_gcd_div_gcd (by exact_mod_cast hg)
  · have key : a.tdiv (Int.gcd a b : Int) * b = a * b.tdiv (Int.gcd a b : Int) :=
      cross_mul_of_cancel ca cb
    rw [div_eq_div_iff (by exact_mod_cast hq.ne') (by exact_mod_cast hb.ne')]
    exact_mod_cast key

theorem new_pos_parts {n d : Int} (hn : 0 < n) (hd : 0 < d) :
    ∃ p q g : Int, Ratio.new n d = some ⟨p, q⟩ ∧ 0 < p ∧ 0 < q ∧ 0 < g ∧
      p * g = n ∧ q * g = d ∧
      Int.gcd p q = 1 ∧ (p : ℚ) / (q : ℚ) = (n : ℚ) / (d : ℚ) := by
  obtain ⟨p, q, g, heq, hp, hq, hg, cn, cd, hcop, hval⟩ := reduce_pos_parts hn hd
  exact ⟨p, q, g, by rw [Ratio.new, heq]; rfl, hp, hq, hg, cn, cd, hcop, hval⟩

theorem natAbs_tmod_lt (a : Int) {b : Int} (hb : b ≠ 0) :
    (Int.tmod a b).natAbs < b.natAbs := by
  cases a with
  | ofNat m =>
    cases b with
    | ofNat n =>
      have hn : 0 < n := by
        rcases Nat.eq_zero_or_pos n with h | h
        · exact absurd (by rw [h]; rfl) hb
        · exact h
      simpa [Int.tmod] using Nat.mod_lt m hn
    | negSucc n => simpa [Int.tmod] using Nat.mod_lt m (Nat.succ_pos n)
  | negSucc m =>
    cases b with
    | ofNat n =>
      have hn : 0 < n := by
        rcases Nat.eq_zero_or_pos n with h | h
        · exact absurd (by rw [h]; rfl) hb
        · exact h
      simpa [Int.tmod] using Nat.mod_lt (m + 1) hn
    | negSucc n => simpa [Int.tmod] using Nat.mod_lt (m + 1) (Nat.succ_pos n)

theorem gcdGo_bounds :
    ∀ (fuel : Nat) (a b : Int), b ≠ 0 →
      gcdGo fuel a b = b ∨
        (0 < gcdGo fuel a b ∧ (gcdGo fuel a b).natAbs < b.natAbs) := by
  intro fuel
  induction fuel with
  | zero => intro a b _; exact Or.inl rfl
  | succ fuel ih =>
    intro a b hb
    have hstep : gcdGo (fuel + 1) a b =
        if 0 < Int.tmod a b then gcdGo fuel b (Int.tmod a b) else b := rfl
    by_cases hr : 0 < Int.tmod a b
    · rw [hstep, if_pos hr]
      have habs : (Int.tmod a b).natAbs < b.natAbs := natAbs_tmod_lt a hb
      rcases ih b (Int.tmod a b) (by omega) with h | ⟨h1, h2⟩
      · right
        rw [h]
        exact ⟨hr, habs⟩
      · right
        exact ⟨h1, by omega⟩
    · rw [hstep, if_neg hr]
      exact Or.inl rfl

theorem rustGcd_ne_zero {a b : Int} (hb : b ≠ 0) : rustGcd a b ≠ 0 := by
  rcases gcdGo_bounds (b.natAbs + 1) a b hb with h | ⟨h1, _⟩
  · rw [rustGcd, h]; exact hb
  · rw [rustGcd]; omega

theorem rustGcd_natAbs_le {a b : Int} (hb : b ≠ 0) :
    (rustGcd a b).natAbs ≤ b.natAbs := by
  rcases gcdGo_bounds (b.natAbs + 1) a b hb with h | ⟨_, h2⟩
  · rw [rustGcd, h]
  · rw [rustGcd]; omega

theorem tdiv_ne_zero_of_natAbs_le {b g : Int} (hb : b ≠ 0) (hg : g ≠ 0)
    (hle : g.natAbs ≤ b.natAbs) : b.tdiv g ≠ 0 := by
  intro h
  have habs : (b.tdiv g).natAbs = b.natAbs / g.natAbs := Int.natAbs_tdiv b g
  rw [h] at habs
  have hpos : 0 < g.natAbs := by omega
  have : 0 < b.natAbs / g.natAbs := Nat.div_pos hle hpos
  omega

theorem tdiv_nonpos_of_nonpos {x g : Int} (hx : x ≤ 0) (hg : 0 ≤ g) : x.tdiv g ≤ 0 := by
  have : (-x).tdiv g = -(x.tdiv g) := Int.neg_tdiv x g
  have hnn : 0 ≤ (-x).tdiv g := Int.tdiv_nonneg (by omega) hg
  omega

theorem tdiv_mul_sign_nonpos {x y g : Int} (hg : g ≠ 0) (hxy : x * y ≤ 0) :
    x.tdiv g * y.tdiv g ≤ 0 := by
  have key : ∀ g : Int, 0 < g → x.tdiv g * y.tdiv g ≤ 0 := by
    intro g hgpos
    rcases mul_nonpos_iff.mp hxy with ⟨hx, hy⟩ | ⟨hx, hy⟩
    · exact mul_nonpos_iff.mpr
        (Or.inl ⟨Int.tdiv_nonneg hx hgpos.le, tdiv_nonpos_of_nonpos hy hgpos.le⟩)
    · exact mul_nonpos_iff.mpr
        (Or.inr ⟨tdiv_nonpos_of_nonpos hx hgpos.le, Int.tdiv_nonneg hy hgpos.le⟩)
  rcases lt_or_gt_of_ne hg with hneg | hpos
  · have e1 : x.tdiv g = -(x.tdiv (-g)) := by
      have := Int.tdiv_neg x (-g)
      simpa using this.symm
    have e2 : y.tdiv g = -(y.tdiv (-g)) := by
      have := Int.tdiv_neg y (-g)
      simpa using this.symm
    rw [e1, e2, neg_mul_neg]
    exact key (-g) (by omega)
  · exact key g hpos

theorem reduce_ne_parts {a b : Int} (hb : b ≠ 0) :
    ∃ p q : Int, reduce a b = some (p, q) ∧ q ≠ 0 ∧ (a * b ≤ 0 → p * q ≤ 0) := by
  refine ⟨a.tdiv (rustGcd a b), b.tdiv (rustGcd a b), ?_, ?_, ?_⟩
  · rw [reduce, if_neg hb]
  · exact tdiv_ne_zero_of_natAbs_le hb (rustGcd_ne_zero hb) (rustGcd_natAbs_le hb)
  · intro hab
    exact tdiv_mul_sign_nonpos (rustGcd_ne_zero hb) hab

theorem ltOne_of_nonpos {n d : Int} (hd : d ≠ 0) (h : n * d ≤ 0) : ltOne n d := by
  rcases mul_nonpos_iff.mp h with ⟨h1, h2⟩ | ⟨h1, h2⟩ <;>
    · unfold ltOne
      split_ifs <;> omega

theorem normalizeGo_nonpos :
    ∀ (fuel : Nat) (n d : Int), d ≠ 0 → n * d ≤ 0 →
      normalizeGo fuel ⟨n, d⟩ = none := by
  intro fuel
  induction fuel with
  | zero => intro n d _ _; rfl
  | succ fuel ih =>
    intro n d hd hnd
    show (if ltOne n d then _ else _) = none
    rw [if_pos (ltOne_of_nonpos hd hnd)]
    obtain ⟨p, q, heq, hq, hsign⟩ := reduce_ne_parts (a := n * 2) hd
    have hnd2 : n * 2 * d ≤ 0 := by nlinarith
    rw [Ratio.new, heq]
    exact ih p q hq (hsign hnd2)

theorem normalizeGo_succ_eq (fuel : Nat) (r : Ratio) :
    normalizeGo (fuel + 1) r =
      if ltOne r.numer r.denom then (Ratio.new (r.numer * 2) r.denom).bind (normalizeGo fuel)
      else if geTwo r.numer r.denom then
        (Ratio.new r.numer (r.denom * 2)).bind (normalizeGo fuel)
      else Ratio.new r.numer r.denom := rfl

theorem cast_div_eq_div_iff_cross {p q n d : Int} (hq : q ≠ 0) (hd : d ≠ 0) :
    (p : ℚ) / (q : ℚ) = (n : ℚ) / (d : ℚ) ↔ p * d = n * q := by
  rw [div_eq_div_iff (by exact_mod_cast hq) (by exact_mod_cast hd)]
  norm_cast

theorem normalizeGo_inrange (fuel : Nat) {n d : Int} (hn : 0 < n) (hd : 0 < d)
    (h1 : d ≤ n) (h2 : n < 2 * d) :
    ∃ p q : Int, normalizeGo (fuel + 1) ⟨n, d⟩ = some ⟨p, q⟩ ∧ NormResult n d p q := by
  obtain ⟨p, q, g, heq, hp, hq, hg, cn, cd, hcop, hval⟩ := new_pos_parts hn hd
  refine ⟨p, q, ?_, hp, hq, hcop, ?_, ?_, 0, by rw [zpow_zero, one_mul]; exact hval⟩
  · rw [normalizeGo_succ_eq]
    have c1 : ¬ ltOne n d := by rw [ltOne_iff_of_pos hd]; omega
    have c2 : ¬ geTwo n d := by rw [geTwo_iff_of_pos hd]; omega
    rw [if_neg c1, if_neg c2]
    exact heq
  · have : q * g ≤ p * g := by rw [cn, cd]; omega
    exact le_of_mul_le_mul_right this hg
  · have : p * g < (2 * q) * g := by
      have : (2 * q) * g = 2 * (q * g) := by ring
      rw [cn, this, cd]
      omega
    exact lt_of_mul_lt_mul_right this hg.le

theorem normalizeGo_pos :
    ∀ (fuel : Nat) (n d : Int), 0 < n → 0 < d →
      d ≤ 2 ^ fuel * n → n < 2 ^ (fuel + 1) * d →
      ∃ p q : Int, normalizeGo (fuel + 1) ⟨n, d⟩ = some ⟨p, q⟩ ∧ NormResult n d p q := by
  intro fuel
  induction fuel with
  | zero =>
    intro n d hn hd hb1 hb2
    exact normalizeGo_inrange 0 hn hd (by omega) (by omega)
  | succ fuel ih =>
    intro n d hn hd hb1 hb2
    by_cases c1 : n < d
    · -- value below 1: double the numerator
      obtain ⟨p, q, g, heq, hp, hq, hg, cn, cd, hcop, hval⟩ :=
        new_pos_parts (n := n * 2) (by omega) hd
      have ihb1 : q ≤ 2 ^ fuel * p := by
        have key : q * g ≤ (2 ^ fuel * p) * g := by
          have e1 : (2 ^ fuel * p) * g = 2 ^ fuel * (p * g) := by ring
          have e2 : (2 : Int) ^ fuel * (n * 2) = 2 ^ (fuel + 1) * n := by
            rw [pow_succ]; ring
          rw [cd, e1, cn, e2]
          exact hb1
        exact le_of_mul_le_mul_right key hg
      have ihb2 : p < 2 ^ (fuel + 1) * q := by
        have key : p * g < (2 ^ (fuel + 1) * q) * g := by
          have e1 : (2 ^ (fuel + 1) * q) * g = 2 ^ (fuel + 1) * (q * g) := by ring
          rw [cn, e1, cd]
          have h2f : (2 : Int) ≤ 2 ^ (fuel + 1) := by
            calc (2 : Int) = 2 ^ 1 := (pow_one 2).symm
            _ ≤ 2 ^ (fuel + 1) := pow_le_pow_right₀ (by omega) (by omega)
          nlinarith
        exact lt_of_mul_lt_mul_right key hg.le
      obtain ⟨P, Q, hrec, hP, hQ, hcopPQ, hle, hlt, j, hj⟩ := ih p q hp hq ihb1 ihb2
      refine ⟨P, Q, ?_, hP, hQ, hcopPQ, hle, hlt, j + 1, ?_⟩
      · rw [normalizeGo_succ_eq]
        rw [if_pos (show ltOne n d by rw [ltOne_iff_of_pos hd]; exact c1)]
        show (Ratio.new (n * 2) d).bind (normalizeGo (fuel + 1)) = _
        rw [heq]
        exact hrec
      · rw [hj, hval]
        have hdne : ((d : ℚ)) ≠ 0 := by exact_mod_cast hd.ne'
        rw [zpow_add_one₀ (by norm_num : (2 : ℚ) ≠ 0)]
        push_cast
        field_simp
        ring
    · by_cases c2 : 2 * d ≤ n
      · -- value at least 2: double the denominator
        obtain ⟨p, q, g, heq, hp, hq, hg, cn, cd, hcop, hval⟩ :=
          new_pos_parts hn (d := d * 2) (by omega)
        have ihb1 : q ≤ 2 ^ fuel * p := by
          have key : q * g ≤ (2 ^ fuel * p) * g := by
            have e1 : (2 ^ fuel * p) * g = 2 ^ fuel * (p * g) := by ring
            rw [cd, e1, cn]
            have h2f : (1 : Int) ≤ 2 ^ fuel := by
              have : (0 : Int) < 2 ^ fuel := by positivity
              omega
            nlinarith
          exact le_of_mul_le_mul_right key hg
        have ihb2 : p < 2 ^ (fuel + 1) * q := by
          have key : p * g < (2 ^ (fuel + 1) * q) * g := by
            have e1 : (2 ^ (fuel + 1) * q) * g = 2 ^ (fuel + 1) * (q * g) := by ring
            have e2 : (2 : Int) ^ (fuel + 1) * (d * 2) = 2 ^ (fuel + 1 + 1) * d := by
              rw [pow_succ]; ring
            rw [cn, e1, cd, e2]
            exact hb2
          exact lt_of_mul_lt_mul_right key hg.le
        obtain ⟨P, Q, hrec, hP, hQ, hcopPQ, hle, hlt, j, hj⟩ := ih p q hp hq ihb1 ihb2
        refine ⟨P, Q, ?_, hP, hQ, hcopPQ, hle, hlt, j - 1, ?_⟩
        · rw [normalizeGo_succ_eq]
          rw [if_neg (show ¬ ltOne n d by rw [ltOne_iff_of_pos hd]; exact c1)]
          rw [if_pos (show geTwo n d by rw [geTwo_iff_of_pos hd]; omega)]
          show (Ratio.new n (d * 2)).bind (normalizeGo (fuel + 1)) = _
          rw [heq]
          exact hrec
        · rw [hj, hval]
          rw [sub_eq_add_neg, zpow_add₀ (by norm_num : (2 : ℚ) ≠ 0)]
          have hdne : ((d : ℚ)) ≠ 0 := by exact_mod_cast hd.ne'
          push_cast
          field_simp
          ring
      · exact normalizeGo_inrange (fuel + 1) hn hd (by omega) (by omega)

theorem new_of_coprime {p q : Int} (hp : 0 < p) (hq : 0 < q)
    (hcop : Int.gcd p q = 1) : Ratio.new p q = some ⟨p, q⟩ := by
  rw [Ratio.new, reduce_pos_eq hp hq, hcop]
  simp [Int.tdiv_one]

theorem normalize_fix {p q : Int} (hp : 0 < p) (hq : 0 < q)
    (hcop : Int.gcd p q = 1) (hle : q ≤ p) (hlt : p < 2 * q) :
    Ratio.normalize ⟨p, q⟩ = some ⟨p, q⟩ := by
  rw [Ratio.normalize]
  show normalizeGo (p.natAbs + q.natAbs + 1) ⟨p, q⟩ = _
  rw [normalizeGo_succ_eq]
  rw [if_neg (show ¬ ltOne p q by rw [ltOne_iff_of_pos hq]; omega)]
  rw [if_neg (show ¬ geTwo p q by rw [geTwo_iff_of_pos hq]; omega)]
  exact new_of_coprime hp hq hcop

theorem one_le_val {p q : Int} (hq : 0 < q) (hle : q ≤ p) :
    1 ≤ (p : ℚ) / (q : ℚ) := by
  rw [one_le_div (by exact_mod_cast hq)]
  exact_mod_cast hle

theorem val_lt_two {p q : Int} (hq : 0 < q) (hlt : p < 2 * q) :
    (p : ℚ) / (q : ℚ) < 2 := by
  rw [div_lt_iff (by exact_mod_cast hq)]
  exact_mod_cast hlt

theorem reduced_pair_eq {p q P Q : Int} (hp : 0 < p) (hq : 0 < q)
    (hP : 0 < P) (hQ : 0 < Q) (hcop1 : Int.gcd p q = 1) (hcop2 : Int.gcd P Q = 1)
    (hval : (p : ℚ) / (q : ℚ) = (P : ℚ) / (Q : ℚ)) : p = P ∧ q = Q := by
  have hcross : p * Q = P * q := (cast_div_eq_div_iff_cross hq.ne' hQ.ne').mp hval
  have hco1 : IsCoprime p q := Int.isCoprime_iff_gcd_eq_one.mpr hcop1
  have hco2 : IsCoprime P Q := Int.isCoprime_iff_gcd_eq_one.mpr hcop2
  have d1 : p ∣ P * q := ⟨Q, hcross.symm⟩
  have d2 : P ∣ p * Q := ⟨q, hcross⟩
  have hpP : p ∣ P := hco1.dvd_of_dvd_mul_right d1
  have hPp : P ∣ p := hco2.dvd_of_dvd_mul_right d2
  have hpq : p = P := Int.dvd_antisymm hp.le hP.le hpP hPp
  subst hpq
  refine ⟨rfl, ?_⟩
  have : p * Q = p * q := by omega
  exact (mul_left_cancel₀ hp.ne' this).symm

theorem zpow_two_eq_one_of_bounds {t : Int}
    (h1 : (1 : ℚ) / 2 < 2 ^ t) (h2 : (2 : ℚ) ^ t < 2) : t = 0 := by
  by_contra hne
  rcases lt_or_gt_of_ne hne with hneg | hpos
  · have : (2 : ℚ) ^ t ≤ 2 ^ (-1 : Int) := by
      apply zpow_le_zpow_right₀ (by norm_num)
      omega
    rw [zpow_neg, zpow_one] at this
    norm_num at this
    linarith
  · have : (2 : ℚ) ^ (1 : Int) ≤ 2 ^ t := by
      apply zpow_le_zpow_right₀ (by norm_num)
      omega
    rw [zpow_one] at this
    linarith

theorem canon_orbit_eq {p q P Q : Int} (hp : 0 < p) (hq : 0 < q)
    (hP : 0 < P) (hQ : 0 < Q) (hcop1 : Int.gcd p q = 1) (hcop2 : Int.gcd P Q = 1)
    (hle1 : q ≤ p) (hlt1 : p < 2 * q) (hle2 : Q ≤ P) (hlt2 : P < 2 * Q)
    {t : Int} (hval : (p : ℚ) / (q : ℚ) = 2 ^ t * ((P : ℚ) / (Q : ℚ))) :
    p = P ∧ q = Q := by
  have b1 : 1 ≤ (p : ℚ) / (q : ℚ) := one_le_val hq hle1
  have b2 : (p : ℚ) / (q : ℚ) < 2 := val_lt_two hq hlt1
  have b3 : 1 ≤ (P : ℚ) / (Q : ℚ) := one_le_val hQ hle2
  have b4 : (P : ℚ) / (Q : ℚ) < 2 := val_lt_two hQ hlt2
  have ht : t = 0 := by
    apply zpow_two_eq_one_of_bounds
    · nlinarith
    · nlinarith
  rw [ht, zpow_zero, one_mul] at hval
  exact reduced_pair_eq hp hq hP hQ hcop1 hcop2 hval

theorem normalize_pos_parts {n d : Int} (hn : 0 < n) (hd : 0 < d) :
    ∃ p q : Int, Ratio.normalize ⟨n, d⟩ = some ⟨p, q⟩ ∧ NormResult n d p q := by
  have hF : (Ratio.mk n d).normFuel = n.natAbs + d.natAbs + 1 := rfl
  have hb1 : d ≤ 2 ^ (n.natAbs + d.natAbs) * n := by
    have s1 : (d : Int) < 2 ^ d.natAbs := by
      have := Nat.lt_two_pow d.natAbs
      calc d = (d.natAbs : Int) := by omega
      _ < ((2 ^ d.natAbs : Nat) : Int) := by exact_mod_cast this
      _ = 2 ^ d.natAbs := by push_cast; ring
    have s2 : (2 : Int) ^ d.natAbs ≤ 2 ^ (n.natAbs + d.natAbs) :=
      pow_le_pow_right₀ (by omega) (by omega)
    have s3 : (2 : Int) ^ (n.natAbs + d.natAbs) ≤ 2 ^ (n.natAbs + d.natAbs) * n :=
      le_mul_of_one_le_right (by positivity) (by omega)
    omega
  have hb2 : n < 2 ^ (n.natAbs + d.natAbs + 1) * d := by
    have s1 : (n : Int) < 2 ^ n.natAbs := by
      have := Nat.lt_two_pow n.natAbs
      calc n = (n.natAbs : Int) := by omega
      _ < ((2 ^ n.natAbs : Nat) : Int) := by exact_mod_cast this
      _ = 2 ^ n.natAbs := by push_cast; ring
    have s2 : (2 : Int) ^ n.natAbs ≤ 2 ^ (n.natAbs + d.natAbs + 1) :=
      pow_le_pow_right₀ (by omega) (by omega)
    have s3 : (2 : Int) ^ (n.natAbs + d.natAbs + 1) ≤ 2 ^ (n.natAbs + d.natAbs + 1) * d :=
      le_mul_of_one_le_right (by positivity) (by omega)
    omega
  obtain ⟨p, q, heq, hres⟩ := normalizeGo_pos (n.natAbs + d.natAbs) n d hn hd hb1 hb2
  exact ⟨p, q, by rw [Ratio.normalize, hF]; exact heq, hres⟩

theorem val_mk (p q : Int) : (Ratio.mk p q).val = (p : ℚ) / (q : ℚ) := rfl

theorem complement_pos_parts {n d : Int} (hn : 0 < n) (hd : 0 < d) :
    ∃ p q : Int, Ratio.complement ⟨n, d⟩ = some ⟨p, q⟩ ∧
      0 < p ∧ 0 < q ∧ Int.gcd p q = 1 ∧ q ≤ p ∧ p < 2 * q ∧
      ∃ j : ℤ, (p : ℚ) / (q : ℚ) = 2 ^ j * (2 / ((n : ℚ) / (d : ℚ))) := by
  have h21 : Ratio.new 2 1 = some ⟨2, 1⟩ := by decide
  have hdiv : Ratio.div ⟨2, 1⟩ ⟨n, d⟩ = Ratio.new (2 * d) (1 * n) := rfl
  obtain ⟨a, b, g, heq, hA, hB, hg, ca, cb, hcop, hval⟩ :=
    new_pos_parts (n := 2 * d) (d := 1 * n) (by omega) (by omega)
  obtain ⟨p, q, hnorm, hp, hq, hcopPQ, hle, hlt, j, hj⟩ := normalize_pos_parts hA hB
  refine ⟨p, q, ?_, hp, hq, hcopPQ, hle, hlt, j, ?_⟩
  · rw [Ratio.complement, h21, Option.some_bind, hdiv, heq, Option.some_bind]
    exact hnorm
  · rw [hj, hval]
    have hnne : ((n : ℚ)) ≠ 0 := by exact_mod_cast hn.ne'
    have hdne : ((d : ℚ)) ≠ 0 := by exact_mod_cast hd.ne'
    push_cast
    field_simp

theorem mul_pos_parts {a b c d : Int} (ha : 0 < a) (hb : 0 < b) (hc : 0 < c)
    (hd : 0 < d) :
    ∃ p q : Int, Ratio.mul ⟨a, b⟩ ⟨c, d⟩ = some ⟨p, q⟩ ∧
      0 < p ∧ 0 < q ∧ Int.gcd p q = 1 ∧
      (p : ℚ) / (q : ℚ) = ((a : ℚ) / (b : ℚ)) * ((c : ℚ) / (d : ℚ)) := by
  obtain ⟨p, q, g, heq, hp, hq, hg, cn, cd, hcop, hval⟩ :=
    new_pos_parts (n := a * c) (d := b * d) (by positivity) (by positivity)
  refine ⟨p, q, heq, hp, hq, hcop, ?_⟩
  rw [hval]
  push_cast
  rw [div_mul_div_comm]

theorem zpow_zero_or_one_of_bounds {e : Int}
    (hlo : (1 : ℚ) ≤ 2 ^ e) (hhi : (2 : ℚ) ^ e < 4) : e = 0 ∨ e = 1 := by
  by_contra hne
  push_neg at hne
  rcases lt_or_gt_of_ne hne.1 with hneg | hpos
  · have : (2 : ℚ) ^ e ≤ 2 ^ (-1 : Int) := by
      apply zpow_le_zpow_right₀ (by norm_num)
      omega
    rw [zpow_neg, zpow_one] at this
    norm_num at this
    linarith
  · have h2 : e ≥ 2 := by omega
    have : (2 : ℚ) ^ (2 : Int) ≤ 2 ^ e := by
      apply zpow_le_zpow_right₀ (by norm_num)
      omega
    have h4 : ((2 : ℚ)) ^ (2 : Int) = 4 := by norm_num
    linarith

/-! Claim theorems. -/

/-- C1, amended to positive inputs: for positive integers n, d and every
positive scale factor k, Ratio::new stores the pair divided by
g = gcd(n, d), the stored pair is coprime, scaling both arguments by k
does not change the result, and reduce panics when its second argument
is 0.  (For negative arguments the gcd loop exits early and the stored
pair is neither the gcd-reduced pair nor coprime in general; see the
counterexample.) -/
theorem claim_C1 : ∀ n d k : Int, 0 < n → 0 < d → 0 < k →
    (Ratio.new n d =
        some ⟨n.tdiv (Int.gcd n d : Int), d.tdiv (Int.gcd n d : Int)⟩ ∧
      Int.gcd (n.tdiv (Int.gcd n d : Int)) (d.tdiv (Int.gcd n d : Int)) = 1 ∧
      Ratio.new (k * n) (k * d) = Ratio.new n d) ∧
    reduce n 0 = none := by
  intro n d k hn hd hk
  refine ⟨⟨?_, ?_, ?_⟩, ?_⟩
  · rw [Ratio.new, reduce_pos_eq hn hd]
    rfl
  · obtain ⟨p, q, g, heq, hp, hq, hg, cn, cd, hcop, hval⟩ := reduce_pos_parts hn hd
    rw [reduce_pos_eq hn hd] at heq
    have hpair := Option.some.inj heq
    have h1 : n.tdiv (Int.gcd n d : Int) = p := congrArg Prod.fst hpair
    have h2 : d.tdiv (Int.gcd n d : Int) = q := congrArg Prod.snd hpair
    rw [h1, h2]
    exact hcop
  · have hkn : 0 < k * n := by positivity
    have hkd : 0 < k * d := by positivity
    obtain ⟨p1, q1, g1, heq1, hp1, hq1, _, _, _, hcop1, hval1⟩ := new_pos_parts hkn hkd
    obtain ⟨p2, q2, g2, heq2, hp2, hq2, _, _, _, hcop2, hval2⟩ := new_pos_parts hn hd
    have hkQ : ((k : ℚ)) ≠ 0 := by exact_mod_cast hk.ne'
    have hsame : (p1 : ℚ) / (q1 : ℚ) = (p2 : ℚ) / (q2 : ℚ) := by
      rw [hval1, hval2]
      push_cast
      rw [mul_div_mul_left _ _ hkQ]
    obtain ⟨hpe, hqe⟩ := reduced_pair_eq hp1 hq1 hp2 hq2 hcop1 hcop2 hsame
    rw [heq1, heq2, hpe, hqe]
  · rw [reduce]
    simp

/-- C1 counterexample: 24 and -7 are valid nonzero integers with
gcd of absolute values 1, so the claim as stated says Ratio::new(24, -7)
stores the coprime pair 24 over -7; the code stores 8 over -2, whose
components share the factor 2. -/
theorem claim_C1_counterexample :
    Ratio.new 24 (-7) = some ⟨8, -2⟩ ∧ Int.gcd 24 (-7) = 1 ∧ Int.gcd 8 (-2) = 2 := by
  decide

/-- C1 witness: the amended claim instantiated at n = 6, d = 4, k = 3,
together with the concrete reduced pair. -/
theorem claim_C1_witness :
    (0 : Int) < 6 ∧ (0 : Int) < 4 ∧ (0 : Int) < 3 ∧
    ((Ratio.new 6 4 =
        some ⟨(6 : Int).tdiv (Int.gcd 6 4 : Int), (4 : Int).tdiv (Int.gcd 6 4 : Int)⟩ ∧
      Int.gcd ((6 : Int).tdiv (Int.gcd 6 4 : Int)) ((4 : Int).tdiv (Int.gcd 6 4 : Int)) = 1 ∧
      Ratio.new (3 * 6) (3 * 4) = Ratio.new 6 4) ∧
      reduce 6 0 = none) ∧
    Ratio.new 6 4 = some ⟨3, 2⟩ :=
  ⟨by decide, by decide, by decide,
    claim_C1 6 4 3 (by decide) (by decide) (by decide), by decide⟩

/-- C2, amended to ratios with positive numerator and denominator (on a
ratio whose value is not positive, normalize never returns — see the
counterexample and C10): normalize returns a ratio, is idempotent on it,
and its value lies in the interval from 1 inclusive to 2 exclusive. -/
theorem claim_C2 : ∀ n d : Int, 0 < n → 0 < d →
    ∃ r' : Ratio, Ratio.normalize ⟨n, d⟩ = some r' ∧
      Ratio.normalize r' = some r' ∧ 1 ≤ r'.val ∧ r'.val < 2 := by
  intro n d hn hd
  obtain ⟨p, q, heq, hp, hq, hcop, hle, hlt, _⟩ := normalize_pos_parts hn hd
  refine ⟨⟨p, q⟩, heq, normalize_fix hp hq hcop hle hlt, ?_, ?_⟩
  · rw [val_mk]
    exact one_le_val hq hle
  · rw [val_mk]
    exact val_lt_two hq hlt

/-- C2 counterexample: the ratio 0 over 1 is a ratio (it is even the
result of Ratio::new(0, 1)), yet normalize never returns on it, so its
normalized float value does not lie in any interval; the claim as stated
over every ratio fails. -/
theorem claim_C2_counterexample :
    Ratio.new 0 1 = some ⟨0, 1⟩ ∧ Ratio.normalize ⟨0, 1⟩ = none := by
  decide

/-- C2 witness: the amended claim instantiated at the ratio 9 over 4,
whose normalization is 9 over 8. -/
theorem claim_C2_witness :
    (0 : Int) < 9 ∧ (0 : Int) < 4 ∧
    (∃ r' : Ratio, Ratio.normalize ⟨9, 4⟩ = some r' ∧
      Ratio.normalize r' = some r' ∧ 1 ≤ r'.val ∧ r'.val < 2) ∧
    Ratio.normalize ⟨9, 4⟩ = some ⟨9, 8⟩ :=
  ⟨by decide, by decide, claim_C2 9 4 (by decide) (by decide), by decide⟩

/-- C10, amended: normalize terminates (returns a ratio) on every ratio
with positive numerator and denominator, and on a ratio whose value is
zero or negative (nonzero denominator) the value-below-one branch repeats
forever, so normalize never returns for any amount of fuel, and neither
complement nor pow with a negative exponent returns on such a ratio.
(The claim as stated, for every ratio of positive value, fails on mixed
sign pairs such as -1 over -5; see the counterexample.) -/
theorem claim_C10 : ∀ n d : Int,
    (0 < n → 0 < d → ∃ r', Ratio.normalize ⟨n, d⟩ = some r') ∧
    (d ≠ 0 → n * d ≤ 0 →
      (∀ fuel, normalizeGo fuel ⟨n, d⟩ = none) ∧
      Ratio.complement ⟨n, d⟩ = none ∧ Ratio.pow ⟨n, d⟩ (-1) = none) := by
  intro n d
  constructor
  · intro hn hd
    obtain ⟨p, q, heq, _⟩ := normalize_pos_parts hn hd
    exact ⟨⟨p, q⟩, heq⟩
  · intro hd hnd
    have hdiverge : ∀ fuel, normalizeGo fuel ⟨n, d⟩ = none := fun fuel =>
      normalizeGo_nonpos fuel n d hd hnd
    have hcomp : Ratio.complement ⟨n, d⟩ = none := by
      rw [Ratio.complement]
      have h21 : Ratio.new 2 1 = some ⟨2, 1⟩ := by decide
      rw [h21, Option.some_bind]
      have hdiv : Ratio.div ⟨2, 1⟩ ⟨n, d⟩ = Ratio.new (2 * d) (1 * n) := rfl
      rw [hdiv]
      by_cases hn0 : n = 0
      · subst hn0
        have : Ratio.new (2 * d) (1 * 0) = none := by
          rw [Ratio.new, reduce, if_pos (by ring)]
          rfl
        rw [this]
        rfl
      · obtain ⟨p, q, heqr, hqne, hsign⟩ :=
          reduce_ne_parts (a := 2 * d) (b := 1 * n) (by omega)
        have hnew : Ratio.new (2 * d) (1 * n) = some ⟨p, q⟩ := by
          rw [Ratio.new, heqr]
          rfl
        rw [hnew, Option.some_bind]
        have hprod : (2 * d) * (1 * n) ≤ 0 := by
          have e : (2 * d) * (1 * n) = 2 * (n * d) := by ring
          rw [e]
          linarith
        exact normalizeGo_nonpos _ p q hqne (hsign hprod)
    refine ⟨hdiverge, hcomp, ?_⟩
    rw [Ratio.pow, if_neg (by omega)]
    rw [hcomp]
    rfl

/-- C10 counterexample: the ratio -1 over -5 has strictly positive
rational value one fifth, yet normalize never returns on it: the first
doubling step reduces -2 over -5 to 0 over 1, on which the
value-below-one branch loops forever. -/
theorem claim_C10_counterexample :
    0 < (Ratio.mk (-1) (-5)).val ∧ Ratio.normalize ⟨-1, -5⟩ = none := by
  constructor
  · rw [val_mk]
    norm_num
  · decide

/-- C10 witness: the amended claim applied at the terminating input 3 over
2 and at the diverging inputs 0 over 1. -/
theorem claim_C10_witness :
    (∃ r', Ratio.normalize ⟨3, 2⟩ = some r') ∧
    normalizeGo 5 ⟨0, 1⟩ = none ∧
    Ratio.complement ⟨0, 1⟩ = none ∧
    Ratio.pow ⟨0, 1⟩ (-1) = none ∧
    Ratio.normalize ⟨3, 2⟩ = some ⟨3, 2⟩ :=
  ⟨(claim_C10 3 2).1 (by decide) (by decide),
    ((claim_C10 0 1).2 (by decide) (by decide)).1 5,
    ((claim_C10 0 1).2 (by decide) (by decide)).2.1,
    ((claim_C10 0 1).2 (by decide) (by decide)).2.2,
    by decide⟩

/-- C3, amended to ratios with positive numerator and denominator, and
with the unison excluded from the product identity: complement is an
involution up to normalization, and whenever the normalized ratio is not
1 over 1, the product of the normalized ratio with the complement is
exactly 2 over 1 (when the normalized ratio is 1 over 1 the complement is
also 1 over 1 and the product is 1 over 1, not 2 over 1 — see the
counterexample). -/
theorem claim_C3 : ∀ n d : Int, 0 < n → 0 < d →
    (((Ratio.complement ⟨n, d⟩).bind Ratio.complement).bind Ratio.normalize =
      Ratio.normalize ⟨n, d⟩) ∧
    (∀ r' c : Ratio, Ratio.normalize ⟨n, d⟩ = some r' →
      Ratio.complement ⟨n, d⟩ = some c → r' ≠ ⟨1, 1⟩ → r'.mul c = some ⟨2, 1⟩) := by
  intro n d hn hd
  have h2 : (2 : ℚ) ≠ 0 := two_ne_zero
  have hvpos : 0 < (n : ℚ) / (d : ℚ) := by positivity
  obtain ⟨p1, q1, hc1, hp1, hq1, hcop1, hle1, hlt1, j, hj⟩ := complement_pos_parts hn hd
  obtain ⟨p2, q2, hc2, hp2, hq2, hcop2, hle2, hlt2, k, hk⟩ := complement_pos_parts hp1 hq1
  obtain ⟨P, Q, hnorm, hP, hQ, hcopPQ, hleP, hltP, m, hm⟩ := normalize_pos_parts hn hd
  have hv1pos : 0 < (p1 : ℚ) / (q1 : ℚ) := by positivity
  have key : (p2 : ℚ) / (q2 : ℚ) = 2 ^ (k - j - m) * ((P : ℚ) / (Q : ℚ)) := by
    rw [hk, hj, hm, sub_sub, zpow_sub₀ h2, zpow_add₀ h2]
    have hzj : (2 : ℚ) ^ j ≠ 0 := zpow_ne_zero _ h2
    have hzm : (2 : ℚ) ^ m ≠ 0 := zpow_ne_zero _ h2
    have hzk : (2 : ℚ) ^ k ≠ 0 := zpow_ne_zero _ h2
    field_simp
    ring
  constructor
  · obtain ⟨hpe, hqe⟩ :=
      canon_orbit_eq hp2 hq2 hP hQ hcop2 hcopPQ hle2 hlt2 hleP hltP key
    rw [hc1, Option.some_bind, hc2, Option.some_bind, hnorm]
    rw [normalize_fix hp2 hq2 hcop2 hle2 hlt2, hpe, hqe]
  · intro r' c hr hc hne
    have hre : r' = Ratio.mk P Q := by
      rw [hnorm] at hr
      exact (Option.some.inj hr).symm
    have hce : c = Ratio.mk p1 q1 := by
      rw [hc1] at hc
      exact (Option.some.inj hc).symm
    subst hre hce
    obtain ⟨u, w, hmul, hu, hw, hcopUW, hval⟩ := mul_pos_parts hP hQ hp1 hq1
    have hprod : (u : ℚ) / (w : ℚ) = 2 ^ (m + j + 1) := by
      rw [hval, hm, hj, zpow_add₀ h2, zpow_add₀ h2, zpow_one]
      field_simp
      ring
    have b1 : 1 ≤ (P : ℚ) / (Q : ℚ) := one_le_val hQ hleP
    have b2 : (P : ℚ) / (Q : ℚ) < 2 := val_lt_two hQ hltP
    have b3 : 1 ≤ (p1 : ℚ) / (q1 : ℚ) := one_le_val hq1 hle1
    have b4 : (p1 : ℚ) / (q1 : ℚ) < 2 := val_lt_two hq1 hlt1
    have hlo : (1 : ℚ) ≤ 2 ^ (m + j + 1) := by
      rw [← hprod, hval]
      nlinarith
    have hhi : (2 : ℚ) ^ (m + j + 1) < 4 := by
      rw [← hprod, hval]
      nlinarith
    rcases zpow_zero_or_one_of_bounds hlo hhi with he | he
    · exfalso
      apply hne
      have hPQ1 : (P : ℚ) / (Q : ℚ) = 1 := by
        have : ((P : ℚ) / Q) * ((p1 : ℚ) / q1) = 1 := by
          rw [← hval, hprod, he, zpow_zero]
        nlinarith
      have hPeQ : P = Q := by
        have : (P : ℚ) = (Q : ℚ) := by
          field_simp at hPQ1
          exact_mod_cast hPQ1
        exact_mod_cast this
      have hP1 : P = 1 := by
        have := hcopPQ
        rw [← hPeQ, Int.gcd_self] at this
        omega
      have hQ1 : Q = 1 := by omega
      rw [hP1, hQ1]
    · have hval2 : (u : ℚ) / (w : ℚ) = ((2 : Int) : ℚ) / ((1 : Int) : ℚ) := by
        rw [hprod, he, zpow_one]
        norm_num
      obtain ⟨hue, hwe⟩ := reduced_pair_eq hu hw (by omega) (by omega)
        hcopUW (by decide) hval2
      rw [hmul, hue, hwe]

/-- C3 counterexample: at the unison ratio 1 over 1, the normalized ratio
times the complement is 1 over 1, not 2 over 1, refuting the product
identity as stated for every ratio. -/
theorem claim_C3_counterexample :
    Ratio.normalize ⟨1, 1⟩ = some ⟨1, 1⟩ ∧
    Ratio.complement ⟨1, 1⟩ = some ⟨1, 1⟩ ∧
    Ratio.mul ⟨1, 1⟩ ⟨1, 1⟩ = some ⟨1, 1⟩ ∧ Ratio.mk 1 1 ≠ ⟨2, 1⟩ := by
  decide

/-- C3 witness: the amended claim applied at the ratio 3 over 2, together
with the concrete complement 4 over 3 and product 2 over 1. -/
theorem claim_C3_witness :
    (0 : Int) < 3 ∧ (0 : Int) < 2 ∧
    ((((Ratio.complement ⟨3, 2⟩).bind Ratio.complement).bind Ratio.normalize =
        Ratio.normalize ⟨3, 2⟩) ∧
      (∀ r' c : Ratio, Ratio.normalize ⟨3, 2⟩ = some r' →
        Ratio.complement ⟨3, 2⟩ = some c → r' ≠ ⟨1, 1⟩ →
          r'.mul c = some ⟨2, 1⟩)) ∧
    Ratio.complement ⟨3, 2⟩ = some ⟨4, 3⟩ ∧
    Ratio.normalize ⟨3, 2⟩ = some ⟨3, 2⟩ ∧
    Ratio.mul ⟨3, 2⟩ ⟨4, 3⟩ = some ⟨2, 1⟩ :=
  ⟨by decide, by decide, claim_C3 3 2 (by decide) (by decide),
    by decide, by decide, by decide⟩

theorem spm_eq_emod {a b : Int} (hb : 0 < b) : sign_preserving_mod a b = a % b := by
  have habs : (Int.tmod a b).natAbs < b.natAbs := natAbs_tmod_lt a (by omega)
  have hx : 0 ≤ Int.tmod a b + b := by omega
  rw [sign_preserving_mod, Int.tmod_eq_emod hx hb.le]
  have h1 : Int.tmod a b + b = a + b * (1 - a.tdiv b) := by
    rw [Int.tmod_def]
    ring
  rw [h1, Int.add_mul_emod_self_left]

/-- C5, amended: for all bounds and indices the resolved index equals
sign_preserving_mod of the shifted index minus the shift, exactly as the
code computes it; the result lies in the inclusive range from a to b
whenever a is at most 0 (and a is at most b).  For a strictly positive
lower bound a the shift uses the absolute value of a in the wrong
direction and the result can fall below a — see the counterexample. -/
theorem claim_C5 : ∀ a b i : Int,
    (LatticeDimensionBounds.resolve_index (.RangeBounded a b) i =
      sign_preserving_mod (i + |a|) (b - a + 1) - |a|) ∧
    (a ≤ b → a ≤ 0 →
      a ≤ LatticeDimensionBounds.resolve_index (.RangeBounded a b) i ∧
      LatticeDimensionBounds.resolve_index (.RangeBounded a b) i ≤ b) := by
  intro a b i
  refine ⟨rfl, ?_⟩
  intro hab ha0
  have hm : 0 < b - a + 1 := by omega
  show a ≤ sign_preserving_mod (i + |a|) (b - a + 1) - |a| ∧
    sign_preserving_mod (i + |a|) (b - a + 1) - |a| ≤ b
  rw [spm_eq_emod hm]
  have h1 : 0 ≤ (i + |a|) % (b - a + 1) := Int.emod_nonneg _ (by omega)
  have h2 : (i + |a|) % (b - a + 1) < b - a + 1 := Int.emod_lt_of_pos _ hm
  have habs : |a| = -a := abs_of_nonpos ha0
  omega

/-- C5 counterexample: with the valid bounds a = 1 and b = 2 the resolved
index of 0 is 0, which does not lie in the inclusive range from 1 to 2. -/
theorem claim_C5_counterexample :
    (1 : Int) ≤ 2 ∧
    LatticeDimensionBounds.resolve_index (.RangeBounded 1 2) 0 = 0 ∧
    ¬ (1 ≤ LatticeDimensionBounds.resolve_index (.RangeBounded 1 2) 0) := by
  decide

/-- C5 witness: the amended claim applied at the bounds -2 and 3, with the
two concrete index resolutions named by the claim. -/
theorem claim_C5_witness :
    ((-2 : Int) ≤ 3 ∧ (-2 : Int) ≤ 0) ∧
    ((-2 : Int) ≤ LatticeDimensionBounds.resolve_index (.RangeBounded (-2) 3) 4 ∧
      LatticeDimensionBounds.resolve_index (.RangeBounded (-2) 3) 4 ≤ 3) ∧
    LatticeDimensionBounds.resolve_index (.RangeBounded (-2) 3) 4 = -2 ∧
    LatticeDimensionBounds.resolve_index (.RangeBounded (-2) 3) (-3) = 3 :=
  ⟨⟨by decide, by decide⟩,
    (claim_C5 (-2) 3 4).2 (by decide) (by decide),
    by decide, by decide⟩

theorem zip_take_len_right {α β : Type} :
    ∀ (l1 : List α) (l2 : List β), l1.zip (l2.take l1.length) = l1.zip l2 := by
  intro l1
  induction l1 with
  | nil => intro l2; simp
  | cons a l ih =>
    intro l2
    cases l2 with
    | nil => simp
    | cons b l2 =>
      simp only [List.length_cons, List.take_succ_cons, List.zip_cons_cons]
      rw [ih l2]

theorem zip_take_len_left {α β : Type} :
    ∀ (l1 : List α) (l2 : List β), (l1.take l2.length).zip l2 = l1.zip l2 := by
  intro l1
  induction l1 with
  | nil => intro l2; simp
  | cons a l ih =>
    intro l2
    cases l2 with
    | nil => simp
    | cons b l2 =>
      simp only [List.length_cons, List.take_succ_cons, List.zip_cons_cons]
      rw [ih l2]

/-- C6: Lattice::at zips dimensions with indices positionally — extra
indices or extra dimensions beyond the shorter list are silently ignored,
as the two truncation equations state — computes each dimension through
its boundary policy and pow, and folds by ratio multiplication starting
from the identity ratio 1 over 1 (so the empty lattice answers 1 over 1);
the two-dimensional lattice over 3 over 2 and 5 over 4 at index 1, 1
yields 15 over 8. -/
theorem claim_C6 :
    (∀ (dims : List LatticeDimension) (idx : List Int),
      (Lattice.mk dims).atIndices idx =
        (Lattice.mk dims).atIndices (idx.take dims.length) ∧
      (Lattice.mk dims).atIndices idx =
        (Lattice.mk (dims.take idx.length)).atIndices idx ∧
      (Lattice.mk []).atIndices idx = Ratio.new 1 1) ∧
    (Lattice.mk [⟨⟨3, 2⟩, .Infinite⟩, ⟨⟨5, 4⟩, .Infinite⟩]).atIndices [1, 1] =
      some ⟨15, 8⟩ := by
  refine ⟨?_, by decide⟩
  intro dims idx
  refine ⟨?_, ?_, rfl⟩
  · show ((dims.zip idx).map _).foldl _ _ = ((dims.zip (idx.take dims.length)).map _).foldl _ _
    rw [zip_take_len_right dims idx]
  · show ((dims.zip idx).map _).foldl _ _ = (((dims.take idx.length).zip idx).map _).foldl _ _
    rw [zip_take_len_left dims idx]

/-- C9: multiplying the ratio 2147483647 over 2147483646 by itself fails
loudly (the checked product is none, the model of the debug-build panic
the crate's own overflow test expects) at the 32-bit width, while at the
64-bit width it succeeds and returns the exact reduced product, whose
components are the exact squares and are coprime. -/
theorem claim_C9 :
    Ratio.new 2147483647 2147483646 = some ⟨2147483647, 2147483646⟩ ∧
    Ratio.mulChecked i32Min i32Max ⟨2147483647, 2147483646⟩
      ⟨2147483647, 2147483646⟩ = none ∧
    Ratio.mulChecked i64Min i64Max ⟨2147483647, 2147483646⟩
      ⟨2147483647, 2147483646⟩ = some ⟨4611686014132420609, 4611686009837453316⟩ ∧
    (4611686014132420609 : Int) = 2147483647 * 2147483647 ∧
    (4611686009837453316 : Int) = 2147483646 * 2147483646 ∧
    Int.gcd 4611686014132420609 4611686009837453316 = 1 := by
  decide

theorem enum_range' :
    ∀ (k i : Nat), (List.range' i k).enum = (List.range k).map fun j => (j, i + j) := by
  intro k
  induction k with
  | zero => intro i; rfl
  | succ k ih =>
    intro i
    rw [List.range'_succ, List.enum_cons', ih (i + 1), List.range_succ_eq_map]
    rw [List.map_cons, List.map_map, List.map_map]
    congr 1
    apply List.map_congr_left
    intro j _
    show (j + 1, i + 1 + j) = (j + 1, i + (j + 1))
    rw [Prod.mk.injEq]
    omega

/-- C8: for identities of length n at least 1 with max = n - 1, the
coordinate enumeration produces exactly 2n - 1 rows; for i from max down
to 0, the row at position max - i is the diagonal of pairs k maps-to
(k, i + k) for k up to max - i, and for i from 1 to max the row at
position max + i is the mirrored diagonal of pairs (i + k, k). -/
theorem claim_C8 : ∀ ids : List Nat, 1 ≤ ids.length →
    (Diamond.mk ids).indexCoordinates.length = 2 * ids.length - 1 ∧
    (∀ i : Nat, i ≤ ids.length - 1 →
      (Diamond.mk ids).indexCoordinates[ids.length - 1 - i]? =
        some ((List.range (ids.length - 1 - i + 1)).map fun k => (k, i + k))) ∧
    (∀ i : Nat, 1 ≤ i → i ≤ ids.length - 1 →
      (Diamond.mk ids).indexCoordinates[ids.length - 1 + i]? =
        some ((List.range (ids.length - 1 - i + 1)).map fun k => (i + k, k))) := by
  intro ids hlen
  have hdef : (Diamond.mk ids).indexCoordinates =
      ((List.range (ids.length - 1 + 1)).reverse.map fun i =>
        (List.range' i (ids.length - 1 - i + 1)).enum) ++
      ((List.range' 1 (ids.length - 1)).map fun i =>
        ((List.range' i (ids.length - 1 - i + 1)).enum).map fun p => (p.2, p.1)) := rfl
  have hlen1 : (((List.range (ids.length - 1 + 1)).reverse.map fun i =>
      (List.range' i (ids.length - 1 - i + 1)).enum)).length = ids.length - 1 + 1 := by
    simp
  refine ⟨?_, ?_, ?_⟩
  · rw [hdef]
    simp
    omega
  · intro i hi
    rw [hdef, List.getElem?_append_left (by rw [hlen1]; omega), List.getElem?_map]
    rw [List.getElem?_reverse (by simp; omega), List.length_range]
    rw [List.getElem?_range (by omega)]
    have hrev : ids.length - 1 + 1 - 1 - (ids.length - 1 - i) = i := by omega
    rw [hrev]
    simp only [Option.map_some']
    rw [enum_range']
  · intro i hi1 hi2
    rw [hdef, List.getElem?_append_right (by rw [hlen1]; omega), hlen1]
    rw [List.getElem?_map]
    rw [List.getElem?_range' 1 1 (show ids.length - 1 + i - (ids.length - 1 + 1) <
      ids.length - 1 by omega)]
    have hidx : 1 + 1 * (ids.length - 1 + i - (ids.length - 1 + 1)) = i := by omega
    rw [hidx]
    simp only [Option.map_some']
    rw [enum_range', List.map_map]
    rfl

/-- C8 witness: the claim applied to the identity list 1, 3, 5 at the
diagonal parameter i = 1 for both families, plus the fully evaluated
coordinate rows. -/
theorem claim_C8_witness :
    1 ≤ ([1, 3, 5] : List Nat).length ∧
    (Diamond.mk [1, 3, 5]).indexCoordinates.length = 2 * ([1, 3, 5] : List Nat).length - 1 ∧
    (Diamond.mk [1, 3, 5]).indexCoordinates[([1, 3, 5] : List Nat).length - 1 - 1]? =
      some ((List.range (([1, 3, 5] : List Nat).length - 1 - 1 + 1)).map fun k => (k, 1 + k)) ∧
    (Diamond.mk [1, 3, 5]).indexCoordinates[([1, 3, 5] : List Nat).length - 1 + 1]? =
      some ((List.range (([1, 3, 5] : List Nat).length - 1 - 1 + 1)).map fun k => (1 + k, k)) ∧
    (Diamond.mk [1, 3, 5]).indexCoordinates =
      [[(0, 2)], [(0, 1), (1, 2)], [(0, 0), (1, 1), (2, 2)], [(1, 0), (2, 1)], [(2, 0)]] :=
  ⟨by decide, (claim_C8 [1, 3, 5] (by decide)).1,
    (claim_C8 [1, 3, 5] (by decide)).2.1 1 (by decide),
    (claim_C8 [1, 3, 5] (by decide)).2.2 1 (by decide) (by decide),
    by decide⟩

theorem mapM_some_of_forall {α β : Type} (f : α → Option β) :
    ∀ l : List α, (∀ a ∈ l, (f a).isSome) →
      ∃ l' : List β, l.mapM f = some l' ∧ l'.length = l.length ∧
        ∀ i (hi : i < l.length), l'[i]? = f (l.get ⟨i, hi⟩) := by
  intro l
  induction l with
  | nil =>
    intro _
    refine ⟨[], rfl, rfl, fun i hi => absurd hi (by simp)⟩
  | cons a l ih =>
    intro h
    obtain ⟨b, hb⟩ := Option.isSome_iff_exists.mp (h a (by simp))
    obtain ⟨l', hl', hlen, hidx⟩ := ih fun x hx => h x (by simp [hx])
    refine ⟨b :: l', ?_, by simp [hlen], ?_⟩
    · rw [List.mapM_cons, hb, hl']
      rfl
    · intro i hi
      cases i with
      | zero => simpa using hb.symm
      | succ i =>
        simp only [List.getElem?_cons_succ, List.get_cons_succ]
        exact hidx i (by simpa using hi)

theorem cell_pos_canon {n d : Int} (hn : 0 < n) (hd : 0 < d) :
    ∃ e : Ratio, (Ratio.new n d).bind Ratio.normalize = some e ∧
      0 < e.numer ∧ 0 < e.denom ∧ 1 ≤ e.val ∧ e.val < 2 := by
  obtain ⟨a, b, g, heq, hA, hB, _, _, _, _, _⟩ := new_pos_parts hn hd
  obtain ⟨p, q, hnorm, hp, hq, hcop, hle, hlt, _⟩ := normalize_pos_parts hA hB
  refine ⟨⟨p, q⟩, ?_, hp, hq, ?_, ?_⟩
  · rw [heq, Option.some_bind]
    exact hnorm
  · rw [val_mk]
    exact one_le_val hq hle
  · rw [val_mk]
    exact val_lt_two hq hlt

theorem cell_diag {x : Int} (hx : 0 < x) :
    (Ratio.new x x).bind Ratio.normalize = some ⟨1, 1⟩ := by
  have h1 : Ratio.new x x = some ⟨1, 1⟩ := by
    rw [Ratio.new, reduce_pos_eq hx hx, Int.gcd_self]
    have hcast : ((x.natAbs : Int)) = x := by omega
    rw [hcast, Int.tdiv_self hx.ne']
    rfl
  rw [h1, Option.some_bind]
  exact normalize_fix one_pos one_pos (by decide) le_rfl (by omega)

/-- C7, amended to lists of positive identities (within the 32-bit range,
matching the u32-to-i32 casts in the source; an identity 0 makes generate
panic on a zero denominator — see the counterexample): generate returns a
square matrix, row-major, whose entry at row i and column j is
Ratio::new(identities j, identities i).normalize(), an octave-normalized
ratio with value in the interval from 1 inclusive to 2 exclusive, with
the unison 1 over 1 on the diagonal. -/
theorem claim_C7 : ∀ ids : List Nat, (∀ x ∈ ids, 0 < x ∧ x < 2 ^ 31) →
    ∃ M : List (List Ratio), (Diamond.mk ids).generate = some M ∧
      M.length = ids.length ∧
      (∀ i (hi : i < ids.length), ∃ row : List Ratio, M[i]? = some row ∧
        row.length = ids.length ∧
        ∀ j (hj : j < ids.length),
          row[j]? = (Ratio.new ((ids.get ⟨j, hj⟩ : Nat) : Int)
              ((ids.get ⟨i, hi⟩ : Nat) : Int)).bind Ratio.normalize ∧
          ∃ e : Ratio, row[j]? = some e ∧ 1 ≤ e.val ∧ e.val < 2) ∧
      (∀ i (hi : i < ids.length), M[i]?.bind (fun row => row[i]?) = some ⟨1, 1⟩) := by
  intro ids hpos
  have hmem : ∀ x ∈ ids, (0 : Int) < (x : Int) := fun x hx => by
    have := (hpos x hx).1
    exact_mod_cast this
  have hrow : ∀ d0 ∈ ids,
      ∃ row : List Ratio,
        (Diamond.mk ids).constructRatiosWithDenominator ((d0 : Nat) : Int) = some row ∧
        row.length = ids.length ∧
        ∀ j (hj : j < ids.length),
          row[j]? = (Ratio.new ((ids.get ⟨j, hj⟩ : Nat) : Int) ((d0 : Nat) : Int)).bind
            Ratio.normalize := by
    intro d0 hd0
    obtain ⟨row, hr, hrl, hri⟩ :=
      mapM_some_of_forall
        (fun n0 : Nat => (Ratio.new ((n0 : Nat) : Int) ((d0 : Nat) : Int)).bind Ratio.normalize)
        ids
        (fun n0 hn0 => by
          obtain ⟨e, he, _⟩ := cell_pos_canon (hmem n0 hn0) (hmem d0 hd0)
          show ((Ratio.new ((n0 : Nat) : Int) ((d0 : Nat) : Int)).bind
            Ratio.normalize).isSome = true
          rw [he]
          rfl)
    have hr2 : (Diamond.mk ids).constructRatiosWithDenominator ((d0 : Nat) : Int) =
        some row := hr
    exact ⟨row, hr2, hrl, fun j hj => hri j hj⟩
  have hrowSome : ∀ d0 ∈ ids,
      ((Diamond.mk ids).constructRatiosWithDenominator ((d0 : Nat) : Int)).isSome := by
    intro d0 hd0
    obtain ⟨row, hr, _⟩ := hrow d0 hd0
    rw [hr]
    rfl
  obtain ⟨M, hM, hMl, hMi⟩ :=
    mapM_some_of_forall
      (fun den : Nat => (Diamond.mk ids).constructRatiosWithDenominator ((den : Nat) : Int))
      ids hrowSome
  have hM2 : (Diamond.mk ids).generate = some M := hM
  refine ⟨M, hM2, hMl, ?_, ?_⟩
  · intro i hi
    obtain ⟨row, hr, hrl, hri⟩ := hrow (ids.get ⟨i, hi⟩) (ids.get_mem i _)
    have hMrow : M[i]? =
        (Diamond.mk ids).constructRatiosWithDenominator ((ids.get ⟨i, hi⟩ : Nat) : Int) :=
      hMi i hi
    refine ⟨row, ?_, hrl, ?_⟩
    · rw [hMrow, hr]
    · intro j hj
      refine ⟨hri j hj, ?_⟩
      obtain ⟨e, he, _, _, hlo, hhi⟩ :=
        cell_pos_canon (hmem _ (ids.get_mem j hj)) (hmem _ (ids.get_mem i hi))
      refine ⟨e, ?_, hlo, hhi⟩
      rw [hri j hj]
      exact he
  · intro i hi
    obtain ⟨row, hr, hrl, hri⟩ := hrow (ids.get ⟨i, hi⟩) (ids.get_mem i _)
    have hMrow : M[i]? =
        (Diamond.mk ids).constructRatiosWithDenominator ((ids.get ⟨i, hi⟩ : Nat) : Int) :=
      hMi i hi
    rw [hMrow, hr, Option.some_bind, hri i hi]
    exact cell_diag (hmem _ (ids.get_mem i hi))

/-- C7 counterexample: for the one-element identity list containing 0 the
claim as stated promises a 1 by 1 matrix, but generate panics: the cell
Ratio::new(0, 0) divides by zero inside reduce. -/
theorem claim_C7_counterexample :
    ([0] : List Nat).length = 1 ∧ (Diamond.mk [0]).generate = none := by
  decide

/-- C7 witness: the amended claim applied to the identity list 1, 3, 5,
together with the fully evaluated matrix, whose first row is 1 over 1,
3 over 2, 5 over 4 and whose central entry is the unison. -/
theorem claim_C7_witness :
    (∀ x ∈ ([1, 3, 5] : List Nat), 0 < x ∧ x < 2 ^ 31) ∧
    ((Diamond.mk [1, 3, 5]).generate).isSome = true ∧
    (Diamond.mk [1, 3, 5]).generate =
      some [[⟨1, 1⟩, ⟨3, 2⟩, ⟨5, 4⟩], [⟨4, 3⟩, ⟨1, 1⟩, ⟨5, 3⟩],
        [⟨8, 5⟩, ⟨6, 5⟩, ⟨1, 1⟩]] := by
  refine ⟨by decide, ?_, by decide⟩
  obtain ⟨M, hM, _⟩ := claim_C7 [1, 3, 5] (by decide)
  rw [hM]
  rfl

theorem intLog_eq_of_bounds {r : ℚ} (hr : 0 < r) {m : Int}
    (h1 : (2 : ℚ) ^ m ≤ r) (h2 : r < (2 : ℚ) ^ (m + 1)) : Int.log 2 r = m := by
  have hb : (1 : ℕ) < 2 := by norm_num
  have hcast : (((2 : ℕ) : ℚ)) = (2 : ℚ) := by norm_num
  have hlo : m ≤ Int.log 2 r := by
    rw [← Int.zpow_le_iff_le_log hb hr, hcast]
    exact h1
  have hhi : Int.log 2 r < m + 1 := by
    rw [← Int.lt_zpow_iff_log_lt hb hr, hcast]
    exact h2
  omega

theorem twelveEDOOfSteps_some {k : Int} (hk : 0 ≤ k) :
    ∃ iv, twelveEDOOfSteps k = some iv := by
  have hmod : Int.tmod k 12 = k % 12 := Int.tmod_eq_emod hk (by norm_num)
  have h1 : 0 ≤ k % 12 := Int.emod_nonneg k (by norm_num)
  have h2 : k % 12 < 12 := Int.emod_lt_of_pos k (by norm_num)
  have hcases : Int.tmod k 12 = 0 ∨ Int.tmod k 12 = 1 ∨ Int.tmod k 12 = 2 ∨
      Int.tmod k 12 = 3 ∨ Int.tmod k 12 = 4 ∨ Int.tmod k 12 = 5 ∨
      Int.tmod k 12 = 6 ∨ Int.tmod k 12 = 7 ∨ Int.tmod k 12 = 8 ∨
      Int.tmod k 12 = 9 ∨ Int.tmod k 12 = 10 ∨ Int.tmod k 12 = 11 := by omega
  rw [twelveEDOOfSteps]
  rcases hcases with h | h | h | h | h | h | h | h | h | h | h | h <;>
    · rw [h]
      exact ⟨_, rfl⟩

/-- C4, amended: the conversion to an approximate 12-tone equal-tempered
interval computes the cents value on the ratio as is — the source does
not normalize first — so for every ratio whose float value is at least 1
the rounded step count is non-negative, its remainder mod 12 falls in 0
to 11, and the named-degree lookup succeeds; but for a ratio whose value
is below roughly 0.97 the remainder is negative and the failure branch of
the lookup is reached (see the counterexample at the ratio 1 over 3). -/
theorem claim_C4 : ∀ r : Ratio, 1 ≤ r.val →
    ∃ iv, r.approximate12EDO = some iv := by
  intro r hr
  have hq : (0 : ℚ) < r.val := by linarith
  have hq24 : (1 : ℚ) ≤ r.val ^ 24 := one_le_pow₀ hr
  have hlog : 0 ≤ Int.log 2 (2 * r.val ^ 24) := by
    have hb : (1 : ℕ) < 2 := by norm_num
    have hpos : (0 : ℚ) < 2 * r.val ^ 24 := by positivity
    have : ((2 : ℕ) : ℚ) ^ (0 : ℤ) ≤ 2 * r.val ^ 24 := by
      rw [zpow_zero]
      linarith
    exact (Int.zpow_le_iff_le_log hb hpos).mp this
  have hsteps : 0 ≤ etSteps r.val := Int.fdiv_nonneg hlog (by norm_num)
  exact twelveEDOOfSteps_some hsteps

/-- C4 counterexample: the ratio 1 over 3 has value below 1; the code
does not normalize it, the rounded cent count is -1900, its remainder
mod 12 is -7, which matches none of the twelve named degrees, and the
failure branch is reached — the conversion panics instead of producing an
interval name. -/
theorem claim_C4_counterexample :
    (Ratio.mk 1 3).val < 1 ∧ Ratio.approximate12EDO ⟨1, 3⟩ = none := by
  constructor
  · rw [val_mk]
    norm_num
  · rw [Ratio.approximate12EDO]
    have hval : (Ratio.mk 1 3).val = 1 / 3 := by
      rw [val_mk]
      norm_num
    rw [hval]
    have hlog : Int.log 2 (2 * (1 / 3 : ℚ) ^ 24) = -38 := by
      apply intLog_eq_of_bounds (by positivity)
      · have e : ((-38 : ℤ)) = -((38 : ℕ) : ℤ) := by norm_num
        rw [e, zpow_neg, zpow_natCast]
        rw [inv_le_iff_one_le_mul₀ (by positivity)]
        norm_num
      · have e : ((-38 : ℤ) + 1) = -((37 : ℕ) : ℤ) := by norm_num
        rw [e, zpow_neg, zpow_natCast]
        rw [lt_inv_comm₀ (by positivity) (by positivity)]
        norm_num
    rw [etSteps, hlog]
    have hfd : Int.fdiv (-38) 2 = -19 := by decide
    rw [hfd]
    decide

/-- C4 witness: the amended claim applied at the ratio 3 over 2, whose
value exceeds 1, together with the concrete lookup result: the perfect
fifth, as the crate's own test expects. -/
theorem claim_C4_witness :
    1 ≤ (Ratio.mk 3 2).val ∧
    (∃ iv, Ratio.approximate12EDO ⟨3, 2⟩ = some iv) ∧
    Ratio.approximate12EDO ⟨3, 2⟩ = some TwelveEDOInterval.PerfectFifth := by
  have hval : (Ratio.mk 3 2).val = 3 / 2 := by
    rw [val_mk]
    norm_num
  refine ⟨by rw [hval]; norm_num, claim_C4 ⟨3, 2⟩ (by rw [hval]; norm_num), ?_⟩
  rw [Ratio.approximate12EDO, hval]
  have hlog : Int.log 2 (2 * (3 / 2 : ℚ) ^ 24) = 15 := by
    apply intLog_eq_of_bounds (by positivity)
    · have e : ((15 : ℤ)) = ((15 : ℕ) : ℤ) := by norm_num
      rw [e, zpow_natCast, div_pow]
      norm_num
    · have e : ((15 : ℤ) + 1) = ((16 : ℕ) : ℤ) := by norm_num
      rw [e, zpow_natCast, div_pow]
      norm_num
  rw [etSteps, hlog]
  have hfd : Int.fdiv 15 2 = 7 := by decide
  rw [hfd]
  decide

end RustIntonation
